import Mathlib

/-!
Verification of the CV_Analyzer string-matching and scoring core.

The Python sources are embedded shallowly:
* `main.py`: `_is_word_boundary`, `brute_force_search`, `rabin_karp_search`,
  `kmp_search` (tuple-returning matchers with whole-word boundary filtering);
* `algorithms/brute_force.py`, `algorithms/kmp.py`, `algorithms/rabin_karp.py`:
  the dict-returning single-pattern revisions;
* `app.py`: the weighted scoring formula of `run_analysis` /
  `run_batch_analysis_worker` and the score-descending stable sort of
  `update_batch_results_tab`.

Texts and patterns are `List Char`; Python's arbitrary-precision integers are
`Nat` (or `Int` where Python subtraction can go negative); Python floats in the
scoring formulas are modelled as exact rationals (`ℚ`).  Loops whose
termination is not structural take an explicit fuel argument; the fuel chosen
by the entry points is proved sufficient where the theorems need it.
-/

namespace CVA

/-- Python `ord` on a character (its code point). -/
def ordc (c : Char) : ℕ := c.toNat

/-- Python `str.isalnum`, restricted to the ASCII range (all characters that
actually occur in the developments below are ASCII; Python agrees with this
definition on ASCII input). -/
def pyIsAlnum (c : Char) : Bool :=
  (decide ('a' ≤ c) && decide (c ≤ 'z')) ||
  (decide ('A' ≤ c) && decide (c ≤ 'Z')) ||
  (decide ('0' ≤ c) && decide (c ≤ '9'))

/-- Python `str.lower`, restricted to ASCII. -/
def pyLower (c : Char) : Char :=
  if 'A' ≤ c ∧ c ≤ 'Z' then Char.ofNat (c.toNat + 32) else c

/-- `main.py`, `_is_word_boundary(text, start, end)`:
`before = text[start-1] if start > 0 else " "`,
`after = text[end] if end < len(text) else " "`,
`return (not before.isalnum()) and (not after.isalnum())`. -/
def isWordBoundary (t : List Char) (s e : ℕ) : Bool :=
  let before := if 0 < s then t.getD (s - 1) ' ' else ' '
  let after := if e < t.length then t.getD e ' ' else ' '
  !pyIsAlnum before && !pyIsAlnum after

/-! ### Occurrence specification

`occAtB t p q` says that the window of `t` of length `|p|` starting at `q`
equals `p` and passes the whole-word boundary check; `countLe t p b` counts
the occurrences that end at or before position `b`.  For `p ≠ []`,
`countLe t p t.length` is the total whole-word occurrence count. -/

/-- The pattern occurs (as a whole word) at position `q` of `t`. -/
def occAtB (t p : List Char) (q : ℕ) : Bool :=
  decide ((t.drop q).take p.length = p) && isWordBoundary t q (q + p.length)

/-- Number of whole-word occurrences `q` with `q + |p| ≤ b`. -/
def countLe (t p : List Char) (b : ℕ) : ℕ :=
  ((List.range (b + 1 - p.length)).filter (occAtB t p)).length

/-- Total number of whole-word occurrences of `p` in `t`. -/
def occCount (t p : List Char) : ℕ := countLe t p t.length

/-! ### `main.py` brute-force matcher -/

/-- The inner loop shared by `brute_force_search` and the Rabin-Karp
verification step: compare `text[i+j]` with `pattern[j]` for `j` upward,
counting one comparison per character test (including the failing one), and
report whether the full pattern matched. -/
def matchProbe (t p : List Char) (i : ℕ) (j : ℕ) : ℕ × Bool :=
  if h : j < p.length then
    if t.getD (i + j) ' ' = p.getD j ' ' then
      let r := matchProbe t p i (j + 1)
      (r.1 + 1, r.2)
    else (1, false)
  else (0, true)
termination_by p.length - j
decreasing_by simp_wf; omega

/-- The same probe expressed on the window contents alone (used to state
window-local characterizations of the matchers).  Only reached with
`w.length = p.length` in the developments below. -/
def listProbe : List Char → List Char → ℕ × Bool
  | _, [] => (0, true)
  | [], _ :: _ => (1, false)
  | a :: w, b :: q =>
    if a = b then
      let r := listProbe w q
      (r.1 + 1, r.2)
    else (1, false)

/-- `main.py`, `brute_force_search(text, pattern)`: for each start offset the
inner comparison loop runs, then the occurrence is counted when the full
pattern matched and `_is_word_boundary` approves the span. -/
def brute_force_search (t p : List Char) : ℕ × ℕ :=
  if p.length = 0 then (0, 0)
  else if t.length < p.length then (0, 0)
  else
    (List.range (t.length - p.length + 1)).foldl
      (fun acc i =>
        let r := matchProbe t p i 0
        ((if r.2 && isWordBoundary t i (i + p.length) then acc.1 + 1 else acc.1),
         acc.2 + r.1))
      (0, 0)

/-! ### `main.py` Rabin-Karp matcher -/

/-- The Rabin-Karp modulus of `main.py` (`2305843009213693951 = 2^61 - 1`). -/
def rkMod : ℕ := 2305843009213693951

/-- One step of the initial hash loop:
`hash = (hash * base + ord(ch)) % mod` with `base = 256`. -/
def polyStep (h : ℕ) (c : Char) : ℕ := (h * 256 + ordc c) % rkMod

/-- Hash of a string, as computed by the initial loop of
`rabin_karp_search`. -/
def polyHash (l : List Char) : ℕ := l.foldl polyStep 0

/-- State of the Rabin-Karp window loop: current window hash, occurrence
count, comparison count. -/
structure RkState where
  wh : ℕ
  found : ℕ
  comps : ℕ
deriving Repr, DecidableEq

/-- One iteration of the main loop of `rabin_karp_search` for window start
`i ∈ [1, n-m+1)`: roll the hash, then on hash equality verify character by
character and count the occurrence when verification succeeds and the
boundary check approves.  `ph` is the pattern hash, `power` is
`pow(256, m-1, mod)`. -/
def rkStep (t p : List Char) (ph power : ℕ) (st : RkState) (i : ℕ) : RkState :=
  let lead := ordc (t.getD (i - 1) ' ')
  let newc := ordc (t.getD (i + p.length - 1) ' ')
  let wh := (st.wh + rkMod - (lead * power) % rkMod) % rkMod
  let wh := (wh * 256) % rkMod
  let wh := (wh + newc) % rkMod
  if wh = ph then
    let r := matchProbe t p i 0
    { wh := wh,
      found := if r.2 && isWordBoundary t i (i + p.length) then st.found + 1 else st.found,
      comps := st.comps + r.1 }
  else { wh := wh, found := st.found, comps := st.comps }

/-- `main.py`, `rabin_karp_search(text, pattern)`. -/
def rabin_karp_search (t p : List Char) : ℕ × ℕ :=
  if p.length = 0 then (0, 0)
  else if t.length < p.length then (0, 0)
  else
    let m := p.length
    let ph := polyHash p
    let wh0 := polyHash (t.take m)
    let power := 256 ^ (m - 1) % rkMod
    let st0 : RkState :=
      if ph = wh0 then
        let r := matchProbe t p 0 0
        { wh := wh0,
          found := if r.2 && isWordBoundary t 0 m then 1 else 0,
          comps := r.1 }
      else { wh := wh0, found := 0, comps := 0 }
    let stf := (List.range' 1 (t.length - m)).foldl (rkStep t p ph power) st0
    (stf.found, stf.comps)

/-! ### `main.py` KMP matcher -/

/-- The `lps` ("longest proper prefix-suffix") construction loop of
`kmp_search`, with explicit fuel.  State: partially built table `lps`,
current candidate length `len`, index `i`. -/
def lpsLoop (p : List Char) : ℕ → List ℕ → ℕ → ℕ → List ℕ
  | 0, lps, _, _ => lps
  | fuel + 1, lps, len, i =>
    if i < p.length then
      if p.getD i ' ' = p.getD len ' ' then
        lpsLoop p fuel (lps.set i (len + 1)) (len + 1) (i + 1)
      else if len ≠ 0 then
        lpsLoop p fuel lps (lps.getD (len - 1) 0) i
      else
        lpsLoop p fuel (lps.set i 0) len (i + 1)
    else lps

/-- The `lps` table computed by `kmp_search` (`lps = [0]*m; length = 0; i = 1`;
fuel `3*m` is sufficient: each iteration either advances `i` or strictly
decreases `len`). -/
def computeLps (p : List Char) : List ℕ :=
  lpsLoop p (3 * p.length) (List.replicate p.length 0) 0 1

/-- State of the KMP scan loop: text index `i`, pattern index `j`, occurrence
count `found`, comparison count `comps`. -/
structure KmpState where
  i : ℕ
  j : ℕ
  found : ℕ
  comps : ℕ
deriving Repr, DecidableEq

/-- One iteration of the scan loop of `kmp_search` (executed while
`i < len(text)`): one comparison is counted, then on a character match both
cursors advance and a completed pattern (`j == m`) is counted exactly when
`_is_word_boundary` approves the span `[i-m, i)`, after which `j` falls back
to `lps[j-1]`; on a mismatch `j` falls back to `lps[j-1]` when `j != 0` and
otherwise `i` advances. -/
def kmpStep (t p : List Char) (lps : List ℕ) (st : KmpState) : KmpState :=
  let comps := st.comps + 1
  if t.getD st.i ' ' = p.getD st.j ' ' then
    let i := st.i + 1
    let j := st.j + 1
    if j = p.length then
      { i := i, j := lps.getD (j - 1) 0,
        found := if isWordBoundary t (i - j) i then st.found + 1 else st.found,
        comps := comps }
    else { i := i, j := j, found := st.found, comps := comps }
  else if st.j ≠ 0 then
    { i := st.i, j := lps.getD (st.j - 1) 0, found := st.found, comps := comps }
  else
    { i := st.i + 1, j := st.j, found := st.found, comps := comps }

/-- The scan loop of `kmp_search`, with explicit fuel. -/
def kmpLoop (t p : List Char) (lps : List ℕ) : ℕ → KmpState → KmpState
  | 0, st => st
  | fuel + 1, st =>
    if st.i < t.length then kmpLoop t p lps fuel (kmpStep t p lps st) else st

/-- `main.py`, `kmp_search(text, pattern)` (fuel `2*n + 1` is sufficient:
each iteration either advances `i` or strictly decreases `j`, and `j` only
grows together with `i`). -/
def kmp_search (t p : List Char) : ℕ × ℕ :=
  if p.length = 0 then (0, 0)
  else if t.length < p.length then (0, 0)
  else
    let lps := computeLps p
    let st := kmpLoop t p lps (2 * t.length + 1) ⟨0, 0, 0, 0⟩
    (st.found, st.comps)

/-! ### `algorithms/` dict-returning single-pattern revisions -/

/-- The result dictionary `{"found": ..., "count": ..., "comparisons": ...}`
returned by the `algorithms/` revisions. -/
structure SearchResult where
  found : Bool
  count : ℕ
  comparisons : ℕ
deriving Repr, DecidableEq

/-- Inner loop of `algorithms/brute_force.py`: `for j in range(m)`, counting a
comparison per character test, breaking on the first mismatch. -/
def bfDictProbe (t p : List Char) (i : ℕ) (j : ℕ) : ℕ × Bool :=
  if h : j < p.length then
    if t.getD (i + j) ' ' = p.getD j ' ' then
      let r := bfDictProbe t p i (j + 1)
      (r.1 + 1, r.2)
    else (1, false)
  else (0, true)
termination_by p.length - j
decreasing_by simp_wf; omega

/-- `algorithms/brute_force.py`, `brute_force_search(text, pattern)`: scans
every offset in `range(n - m + 1)` (empty when `m > n`, and offsets `0..n`
for the empty pattern, which therefore matches everywhere), with no boundary
filtering, and returns
`{"found": count > 0, "count": count, "comparisons": comparisons}`. -/
def brute_force_dict (t p : List Char) : SearchResult :=
  let r := (List.range (t.length + 1 - p.length)).foldl
    (fun acc i =>
      let r := bfDictProbe t p i 0
      ((if r.2 then acc.1 + 1 else acc.1), acc.2 + r.1))
    (0, 0)
  { found := decide (0 < r.1), count := r.1, comparisons := r.2 }

/-- Scan loop of `algorithms/kmp.py`, with fuel.  The revision reads
`pattern[j]` before checking `j == m`, so an empty pattern on a nonempty text
raises `IndexError`; that fallible access is modelled by `Option` (`none` is
the exception).  Fuel exhaustion also returns `none`. -/
def kmpDictLoop (t p : List Char) (lps : List ℕ) :
    ℕ → ℕ → ℕ → ℕ → ℕ → Option (ℕ × ℕ)
  | 0, _, _, _, _ => none
  | fuel + 1, i, j, count, comps =>
    if i < t.length then
      if j < p.length then
        let comps := comps + 1
        if t.getD i ' ' = p.getD j ' ' then
          let i := i + 1
          let j := j + 1
          if j = p.length then kmpDictLoop t p lps fuel i (lps.getD (j - 1) 0) (count + 1) comps
          else kmpDictLoop t p lps fuel i j count comps
        else if j ≠ 0 then kmpDictLoop t p lps fuel i (lps.getD (j - 1) 0) count comps
        else kmpDictLoop t p lps fuel (i + 1) j count comps
      else none
    else some (count, comps)

/-- `algorithms/kmp.py`, `kmp_search(text, pattern)` (the embedded
`compute_lps` is the same construction as in `main.py`).  `none` models an
uncaught `IndexError`. -/
def kmp_search_dict (t p : List Char) : Option SearchResult :=
  let lps := computeLps p
  (kmpDictLoop t p lps (2 * t.length + 1) 0 0 0 0).map
    (fun r => { found := decide (0 < r.1), count := r.1, comparisons := r.2 })

/-- `pow(256, -1, 101) = 58`, the modular inverse Python computes for
`h = pow(base, m - 1, prime)` when the pattern is empty (`m - 1 = -1`). -/
def rkDictH (m : ℕ) : ℤ := if m = 0 then 58 else (256 ^ (m - 1) : ℤ) % 101

/-- One window iteration of `algorithms/rabin_karp.py` for window start `i`:
one comparison for the hash test, slice verification on hash equality (not
counted), then the rolling-hash update (over `ℤ`, with Python's nonnegative
`%`; the `if t < 0: t += prime` line is dead code under Python semantics and
is kept as-is). -/
def rkDictStep (t p : List Char) (ph h : ℤ) (st : ℤ × ℕ × ℕ) (i : ℕ) : ℤ × ℕ × ℕ :=
  let comps := st.2.2 + 1
  let count :=
    if st.1 = ph ∧ (t.drop i).take p.length = p then st.2.1 + 1 else st.2.1
  let th :=
    if i < t.length - p.length then
      let th := (256 * (st.1 - (ordc (t.getD i ' ') : ℤ) * h) +
        (ordc (t.getD (i + p.length) ' ') : ℤ)) % 101
      if th < 0 then th + 101 else th
    else st.1
  (th, count, comps)

/-- `algorithms/rabin_karp.py`, `rabin_karp_search(text, pattern)` with the
default `base=256, prime=101`. -/
def rabin_karp_dict (t p : List Char) : SearchResult :=
  if t.length < p.length then { found := false, count := 0, comparisons := 0 }
  else
    let h := rkDictH p.length
    let ph := (p.foldl (fun a c => (256 * a + (ordc c : ℤ)) % 101) 0)
    let th0 := ((t.take p.length).foldl (fun a c => (256 * a + (ordc c : ℤ)) % 101) 0)
    let r := (List.range (t.length - p.length + 1)).foldl (rkDictStep t p ph h) (th0, 0, 0)
    { found := decide (0 < r.2.1), count := r.2.1, comparisons := r.2.2 }

/-! ### `app.py` scoring formula

`run_analysis` (and `run_batch_analysis_worker`) compute, from the matched
mandatory / preferred counts, the totals of the two keyword sets and the
penalty percentage (`penalty_var`, default `20.0`):
`score_mand = (matched_mandatory / len(mandatory)) * 100` when the mandatory
set is nonempty, else `100.0` (likewise for preferred);
`weighted = score_mand * 0.70 + score_pref * 0.30`; and when
`matched_mandatory < len(mandatory)` the result is multiplied by
`1.0 - penalty/100.0`.  Python floats are modelled as exact rationals. -/

/-- The weighted score of `app.py` (`run_analysis` lines 507-516). -/
def weightedScore (mm mTot mp pTot : ℕ) (penalty : ℚ) : ℚ :=
  let scoreMand : ℚ := if mTot ≠ 0 then ((mm : ℚ) / (mTot : ℚ)) * 100 else 100
  let scorePref : ℚ := if pTot ≠ 0 then ((mp : ℚ) / (pTot : ℚ)) * 100 else 100
  let ws := scoreMand * (7 / 10) + scorePref * (3 / 10)
  if mm < mTot then ws * (1 - penalty / 100) else ws

/-- The pre-penalty weighted score, written as the specification states it
(step 3 of the scoring contract). -/
def weightedBase (mm mTot mp pTot : ℕ) : ℚ :=
  (if mTot ≠ 0 then ((mm : ℚ) / (mTot : ℚ)) * 100 else 100) * (7 / 10) +
  (if pTot ≠ 0 then ((mp : ℚ) / (pTot : ℚ)) * 100 else 100) * (3 / 10)

/-! ### `app.py` batch ranking

`update_batch_results_tab` displays `sorted(data, key=score, reverse=True)`;
Python's `sorted` is stable, so entries with equal scores keep the order in
which the worker produced them, and the worker iterates documents in
ascending unique-name order (`unique_names = sorted(list(set(...)))`).
`rankInsert`/`rankSort` is the stable descending-by-score insertion sort,
extensionally equal to Python's stable sort for this key. -/

/-- Stable insertion for the descending-by-score order: an element is placed
before the first entry whose score is not greater (so earlier input entries
stay first among equal scores, as with Python's stable `sorted`).  Document
ids are `List Char`, compared as Python compares strings (lexicographically
by code point). -/
def rankInsert (x : List Char × ℚ) : List (List Char × ℚ) → List (List Char × ℚ)
  | [] => [x]
  | y :: ys => if y.2 ≤ x.2 then x :: y :: ys else y :: rankInsert x ys

/-- `sorted(batch_results_data, key=score, reverse=True)`, stable. -/
def rankSort : List (List Char × ℚ) → List (List Char × ℚ)
  | [] => []
  | x :: xs => rankInsert x (rankSort xs)

/-- The ranking order the specification asks for: strictly greater score
first, ties broken by ascending document id. -/
def RankedOrder (a b : List Char × ℚ) : Prop :=
  b.2 < a.2 ∨ (a.2 = b.2 ∧ a.1 < b.1)

/-! ### Claim-side (specification-worded) definitions -/

/-- Number of windows of `t` whose characters fully match `p`, regardless of
the boundary check (the notion of "complete character match" in the KMP
claim). -/
def fullMatchCount (t p : List Char) : ℕ :=
  ((List.range (t.length + 1 - p.length)).filter
    (fun i => decide ((t.drop i).take p.length = p))).length

/-- Modelled from the spec: the comparison count the Rabin-Karp claim
describes — "once per window position for the hash comparison step, plus once
per character actually checked during collision verification". -/
def rkClaimedComps (t p : List Char) : ℕ :=
  (t.length + 1 - p.length) +
  ((List.range (t.length + 1 - p.length)).map
    (fun i => if polyHash ((t.drop i).take p.length) = polyHash p
      then (listProbe ((t.drop i).take p.length) p).1 else 0)).sum

/-- The comparison count `rabin_karp_search` actually produces: collision
verification cost only, per window whose rolled hash equals the pattern
hash. -/
def rkComps (t p : List Char) : ℕ :=
  ((List.range (t.length + 1 - p.length)).map
    (fun i => if polyHash ((t.drop i).take p.length) = polyHash p
      then (listProbe ((t.drop i).take p.length) p).1 else 0)).sum

/-- The brute-force comparison count, window by window. -/
def bfComps (t p : List Char) : ℕ :=
  ((List.range (t.length + 1 - p.length)).map
    (fun i => (listProbe ((t.drop i).take p.length) p).1)).sum

/-! ### Claim-side and proof-device definitions -/

/-- The character immediately before the span (`none` when `start == 0`:
the specification's non-alphanumeric sentinel). -/
def charBefore (t : List Char) (s : ℕ) : Option Char :=
  if s = 0 then none else t[s - 1]?

/-- The character at the end position of the span (`none` when
`end == length`: the sentinel). -/
def charAfter (t : List Char) (e : ℕ) : Option Char :=
  if e = t.length then none else t[e]?

instance : NeZero rkMod := ⟨by norm_num [rkMod]⟩

/-- The `ZMod`-valued polynomial hash (proof device). -/
def hz (l : List Char) : ZMod rkMod :=
  l.foldl (fun a c => a * 256 + (ordc c : ZMod rkMod)) 0

/-- Comparison cost `rabin_karp_search` pays at window `i` (verification cost
when the hashes agree, nothing otherwise). -/
def rkCost (t p : List Char) (i : ℕ) : ℕ :=
  if polyHash ((t.drop i).take p.length) = polyHash p
    then (listProbe ((t.drop i).take p.length) p).1 else 0

/-- `k` is a border length of the length-`l` prefix of `p`. -/
def isBorder (p : List Char) (k l : ℕ) : Bool :=
  decide (k < l) && decide (p.take k = (p.take l).drop (l - k))

/-- Longest border length of the length-`l` prefix of `p`. -/
def maxBorder (p : List Char) (l : ℕ) : ℕ :=
  Nat.findGreatest (fun k => isBorder p k l = true) (l - 1)

/-! ## Basic list lemmas -/

theorem getD_eq_of_lt {α : Type} (l : List α) (d : α) {n : ℕ} (h : n < l.length) :
    l.getD n d = l[n] := by
  simp [List.getD_eq_getElem?_getD, List.getElem?_eq_getElem h]

theorem take_succ_of_lt {α : Type} {l : List α} {n : ℕ} (h : n < l.length) (d : α) :
    l.take (n + 1) = l.take n ++ [l.getD n d] := by
  rw [List.take_succ, List.getElem?_eq_getElem h, getD_eq_of_lt l d h]
  rfl

theorem suffix_snoc {α : Type} {s u : List α} (a : α) (h : s <:+ u) :
    s ++ [a] <:+ u ++ [a] := by
  rcases h with ⟨w, rfl⟩
  exact ⟨w, by simp⟩

theorem suffix_peel {α : Type} {s u : List α} {a b : α}
    (h : s ++ [a] <:+ u ++ [b]) : a = b ∧ s <:+ u := by
  have hlen : s.length + 1 ≤ u.length + 1 := by
    have := h.length_le
    simpa using this
  rw [List.suffix_iff_eq_drop] at h
  have hk : (u ++ [b]).length - (s ++ [a]).length = u.length - s.length := by
    simp
  rw [hk, List.drop_append_of_le_length (by omega)] at h
  have hinj := List.append_inj h.symm (by simp; omega)
  refine ⟨?_, ?_⟩
  · have := hinj.2
    simpa using this.symm
  · rw [List.suffix_iff_eq_drop]
    have := hinj.1
    have hlen2 : (u.drop (u.length - s.length)).length = s.length := by
      simp; omega
    rw [← this]
    congr 1
    omega

theorem suffix_of_suffix_len_le {α : Type} {s₁ s₂ u : List α}
    (h₁ : s₁ <:+ u) (h₂ : s₂ <:+ u) (h : s₁.length ≤ s₂.length) : s₁ <:+ s₂ := by
  rw [List.suffix_iff_eq_drop] at h₁ h₂
  have h₂len : s₂.length ≤ u.length := by
    rw [h₂]; simp
  rw [List.suffix_iff_eq_drop, h₂, List.drop_drop, h₁]
  congr 1
  simp
  omega

theorem window_stable {t s : List Char} {i m : ℕ} (h : i + m ≤ t.length) :
    (((t ++ s).drop i).take m) = ((t.drop i).take m) := by
  rw [List.drop_append_of_le_length (by omega), List.take_append_of_le_length (by simp; omega)]

theorem window_take_drop {t : List Char} {q k : ℕ} :
    (t.take (q + k)).drop q = (t.drop q).take k := by
  rw [List.drop_take]
  congr 1
  omega

theorem window_length {t : List Char} {i m : ℕ} (h : i + m ≤ t.length) :
    ((t.drop i).take m).length = m := by
  simp
  omega

/-- A full-length window that equals the pattern, restricted to its first `k`
characters, is a suffix of `t.take (q + k)`. -/
theorem window_restrict {t p : List Char} {q k : ℕ}
    (hw : (t.drop q).take p.length = p) (hk : k ≤ p.length) :
    p.take k <:+ t.take (q + k) := by
  have : p.take k = (t.take (q + k)).drop q := by
    rw [window_take_drop, ← hw, List.take_take]
    congr 1
    omega
  rw [this]
  exact List.drop_suffix _ _

/-- Character extraction from a full-length window equality. -/
theorem window_getD {t p : List Char} {q j : ℕ}
    (hw : (t.drop q).take p.length = p) (hj : j < p.length) (d : Char) :
    t.getD (q + j) d = p.getD j d := by
  have h1 : p[j]? = t[q + j]? := by
    rw [← hw, List.getElem?_take, if_pos hj, List.getElem?_drop]
  rw [List.getD_eq_getElem?_getD, List.getD_eq_getElem?_getD, h1]

/-- A suffix of length `m ≤ i` of `t.take i` is the window of `t` at
`i - m`. -/
theorem suffix_take_iff_window {t p : List Char} {i : ℕ}
    (hm : p.length ≤ i) (hi : i ≤ t.length) :
    p <:+ t.take i ↔ (t.drop (i - p.length)).take p.length = p := by
  have hlen : (t.take i).length = i := by simp; omega
  rw [List.suffix_iff_eq_drop, hlen]
  constructor
  · intro h
    rw [← window_take_drop (q := i - p.length) (k := p.length)]
    have : i - p.length + p.length = i := by omega
    rw [this, ← h]
  · intro h
    have h2 := window_restrict (q := i - p.length) h (le_refl _)
    rw [List.take_length, (by omega : i - p.length + p.length = i)] at h2
    rw [List.suffix_iff_eq_drop, hlen] at h2
    exact h2

/-! ## The comparison probe -/

theorem matchProbe_eq_aux (t p : List Char) (i : ℕ) :
    ∀ k j, p.length - j = k → j ≤ p.length → i + p.length ≤ t.length →
      matchProbe t p i j = listProbe ((t.drop (i + j)).take k) (p.drop j) := by
  intro k
  induction k with
  | zero =>
    intro j hk hj _
    have hj' : j = p.length := by omega
    rw [matchProbe]
    simp [hj', listProbe]
  | succ k ih =>
    intro j hk hj hn
    have hjlt : j < p.length := by omega
    have hij : i + j < t.length := by omega
    rw [matchProbe, dif_pos hjlt]
    have hdrop : t.drop (i + j) = t[i + j] :: t.drop (i + j + 1) := by
      exact List.drop_eq_getElem_cons hij
    have hpdrop : p.drop j = p[j] :: p.drop (j + 1) := by
      exact List.drop_eq_getElem_cons hjlt
    rw [hdrop, hpdrop]
    simp only [List.take_succ_cons, listProbe]
    rw [getD_eq_of_lt _ _ hij, getD_eq_of_lt _ _ hjlt]
    by_cases hc : t[i + j] = p[j]
    · rw [if_pos hc, if_pos hc]
      have := ih (j + 1) (by omega) (by omega) hn
      rw [this]
      have : i + j + 1 = i + (j + 1) := by omega
      rw [this]
    · rw [if_neg hc, if_neg hc]

/-- The indexed probe computes the window-local probe. -/
theorem matchProbe_eq (t p : List Char) (i : ℕ) (hn : i + p.length ≤ t.length) :
    matchProbe t p i 0 = listProbe ((t.drop i).take p.length) p := by
  simpa using matchProbe_eq_aux t p i p.length 0 (by omega) (by omega) hn

/-- The probe succeeds exactly on equal strings (of matching length). -/
theorem listProbe_snd : ∀ w p : List Char, w.length = p.length →
    ((listProbe w p).2 = true ↔ w = p)
  | w, [] => by
    intro h
    have : w = [] := List.eq_nil_of_length_eq_zero h
    subst this
    simp [listProbe]
  | [], b :: q => by intro h; simp at h
  | a :: w, b :: q => by
    intro h
    simp only [listProbe]
    by_cases hc : a = b
    · subst hc
      rw [if_pos rfl]
      have := listProbe_snd w q (by simpa using h)
      simpa using this
    · rw [if_neg hc]
      simp [hc]

/-! ## Counting occurrences -/

theorem countLe_zero (t p : List Char) (hm : p.length ≠ 0) : countLe t p 0 = 0 := by
  unfold countLe
  have : 0 + 1 - p.length = 0 := by omega
  rw [this]
  rfl

theorem countLe_succ (t p : List Char) (b : ℕ) (hb : p.length ≤ b + 1) :
    countLe t p (b + 1) =
      countLe t p b + (if occAtB t p (b + 1 - p.length) then 1 else 0) := by
  unfold countLe
  have h1 : b + 1 + 1 - p.length = (b + 1 - p.length) + 1 := by omega
  rw [h1, List.range_succ, List.filter_append]
  by_cases hocc : occAtB t p (b + 1 - p.length)
  · simp [hocc]
  · simp [hocc]

theorem countLe_succ_of_lt (t p : List Char) (b : ℕ) (hb : b + 1 < p.length) :
    countLe t p (b + 1) = countLe t p b := by
  unfold countLe
  have h1 : b + 1 + 1 - p.length = 0 := by omega
  have h2 : b + 1 - p.length = 0 := by omega
  rw [h1, h2]

/-- The generic shape of the per-window accumulation loop. -/
theorem foldl_count_sum (f : ℕ → Bool) (g : ℕ → ℕ) :
    ∀ (l : List ℕ) (a b : ℕ),
      l.foldl (fun acc i => ((if f i then acc.1 + 1 else acc.1), acc.2 + g i)) (a, b)
        = (a + (l.filter f).length, b + (l.map g).sum) := by
  intro l
  induction l with
  | nil => intro a b; simp
  | cons x xs ih =>
    intro a b
    simp only [List.foldl_cons]
    by_cases hx : f x
    · rw [if_pos hx, ih]
      simp [hx]
      omega
    · rw [if_neg hx, ih]
      simp [hx]
      omega

/-- Characterization of `main.py`'s brute-force matcher: the count is the
whole-word occurrence count and the comparison total is the window-by-window
probe cost. -/
theorem brute_force_search_eq (t p : List Char) (hm : p.length ≠ 0)
    (hn : p.length ≤ t.length) :
    brute_force_search t p = (occCount t p, bfComps t p) := by
  unfold brute_force_search
  rw [if_neg hm, if_neg (by omega)]
  have hfold := foldl_count_sum
    (fun i => (matchProbe t p i 0).2 && isWordBoundary t i (i + p.length))
    (fun i => (matchProbe t p i 0).1)
    (List.range (t.length - p.length + 1)) 0 0
  rw [show (fun (acc : ℕ × ℕ) (i : ℕ) =>
      let r := matchProbe t p i 0
      ((if r.2 && isWordBoundary t i (i + p.length) then acc.1 + 1 else acc.1),
        acc.2 + r.1)) = (fun (acc : ℕ × ℕ) (i : ℕ) =>
      ((if (fun i => (matchProbe t p i 0).2 && isWordBoundary t i (i + p.length)) i
        then acc.1 + 1 else acc.1),
        acc.2 + (fun i => (matchProbe t p i 0).1) i)) from rfl, hfold]
  have hrange : t.length - p.length + 1 = t.length + 1 - p.length := by omega
  simp only [Prod.mk.injEq]
  constructor
  · rw [occCount, countLe]
    rw [← hrange]
    simp only [Nat.zero_add]
    congr 1
    apply List.filter_congr
    intro i hi
    rw [List.mem_range] at hi
    have hiw : i + p.length ≤ t.length := by omega
    rw [matchProbe_eq t p i hiw]
    unfold occAtB
    congr 1
    rw [Bool.eq_iff_iff, decide_eq_true_iff]
    exact listProbe_snd _ p (window_length hiw)
  · rw [bfComps, ← hrange]
    simp only [Nat.zero_add]
    congr 1
    apply List.map_congr_left
    intro i hi
    rw [List.mem_range] at hi
    have hiw : i + p.length ≤ t.length := by omega
    rw [matchProbe_eq t p i hiw]

/-! ## Rabin-Karp rolling-hash correctness -/

theorem rkMod_pos : 0 < rkMod := by norm_num [rkMod]

theorem polyHash_concat (l : List Char) (c : Char) :
    polyHash (l ++ [c]) = (polyHash l * 256 + ordc c) % rkMod := by
  simp [polyHash, List.foldl_append, polyStep]

theorem polyHash_lt (l : List Char) : polyHash l < rkMod := by
  rcases List.eq_nil_or_concat l with rfl | ⟨l', c, rfl⟩
  · exact rkMod_pos
  · rw [List.concat_eq_append, polyHash_concat]
    exact Nat.mod_lt _ rkMod_pos

theorem natcast_inj_of_lt {a b : ℕ} (ha : a < rkMod) (hb : b < rkMod)
    (h : (a : ZMod rkMod) = b) : a = b := by
  have := congrArg ZMod.val h
  rwa [ZMod.val_cast_of_lt ha, ZMod.val_cast_of_lt hb] at this

theorem polyHash_cast_acc (l : List Char) : ∀ a : ℕ,
    ((l.foldl polyStep a : ℕ) : ZMod rkMod)
      = l.foldl (fun x c => x * 256 + (ordc c : ZMod rkMod)) (a : ZMod rkMod) := by
  induction l with
  | nil => intro a; rfl
  | cons c l ih =>
    intro a
    simp only [List.foldl_cons, polyStep]
    rw [ih]
    congr 1
    push_cast [ZMod.natCast_mod]
    ring

theorem polyHash_cast (l : List Char) : ((polyHash l : ℕ) : ZMod rkMod) = hz l := by
  simpa using polyHash_cast_acc l 0

theorem hz_acc (l : List Char) : ∀ a : ZMod rkMod,
    l.foldl (fun x c => x * 256 + (ordc c : ZMod rkMod)) a
      = a * 256 ^ l.length + hz l := by
  induction l with
  | nil => intro a; simp [hz]
  | cons c l ih =>
    intro a
    have hc : hz (c :: l) = (ordc c : ZMod rkMod) * 256 ^ l.length + hz l := by
      unfold hz
      simp only [List.foldl_cons]
      rw [ih]
      simp [hz]
    simp only [List.foldl_cons]
    rw [ih, hc]
    simp only [List.length_cons]
    ring

theorem hz_cons (c : Char) (l : List Char) :
    hz (c :: l) = (ordc c : ZMod rkMod) * 256 ^ l.length + hz l := by
  unfold hz
  simp only [List.foldl_cons]
  rw [hz_acc]
  simp [hz]

theorem hz_concat (l : List Char) (c : Char) :
    hz (l ++ [c]) = hz l * 256 + (ordc c : ZMod rkMod) := by
  unfold hz
  rw [List.foldl_append]
  rfl

/-- One rolling-hash update of `rabin_karp_search` moves the window hash from
window `k` to window `k + 1`. -/
theorem roll_eq (t p : List Char) (k : ℕ) (hm : p.length ≠ 0)
    (hk : k + 1 + p.length ≤ t.length) :
    ((polyHash ((t.drop k).take p.length) + rkMod
        - (ordc (t.getD k ' ') * (256 ^ (p.length - 1) % rkMod)) % rkMod) % rkMod
      * 256 % rkMod + ordc (t.getD (k + p.length) ' ')) % rkMod
    = polyHash ((t.drop (k + 1)).take p.length) := by
  set m := p.length with hmdef
  have hkn : k < t.length := by omega
  have hrest_len : ((t.drop (k + 1)).take (m - 1)).length = m - 1 := by
    simp; omega
  -- window decompositions
  have hwk : (t.drop k).take m = t[k] :: (t.drop (k + 1)).take (m - 1) := by
    obtain ⟨m', hm'⟩ : ∃ m', m = m' + 1 := ⟨m - 1, by omega⟩
    rw [List.drop_eq_getElem_cons hkn, hm', List.take_succ_cons]
    norm_num
  have hkm : k + 1 + (m - 1) < t.length + 1 := by omega
  have hwk1 : (t.drop (k + 1)).take m
      = ((t.drop (k + 1)).take (m - 1)) ++ [t.getD (k + m) ' '] := by
    have h1 : m = (m - 1) + 1 := by omega
    rw [h1, take_succ_of_lt (l := t.drop (k + 1)) (by simp; omega) ' ']
    congr 2
    rw [List.getD_eq_getElem?_getD, List.getElem?_drop, List.getD_eq_getElem?_getD]
    congr 2
    omega
  apply natcast_inj_of_lt (Nat.mod_lt _ rkMod_pos) (polyHash_lt _)
  have hle : (ordc (t.getD k ' ') * (256 ^ (m - 1) % rkMod)) % rkMod
      ≤ polyHash ((t.drop k).take m) + rkMod :=
    le_of_lt (lt_of_lt_of_le (Nat.mod_lt _ rkMod_pos) (Nat.le_add_left _ _))
  rw [ZMod.natCast_mod, Nat.cast_add, ZMod.natCast_mod, Nat.cast_mul,
    ZMod.natCast_mod, Nat.cast_sub hle, Nat.cast_add, ZMod.natCast_mod,
    Nat.cast_mul, ZMod.natCast_mod]
  rw [polyHash_cast, polyHash_cast, hwk, hwk1, hz_cons, hz_concat, hrest_len]
  have hgetk : (t.getD k ' ') = t[k] := getD_eq_of_lt t ' ' hkn
  rw [hgetk]
  push_cast [ZMod.natCast_self]
  ring

theorem rkComps_eq_sum (t p : List Char) :
    rkComps t p = ((List.range (t.length + 1 - p.length)).map (rkCost t p)).sum := rfl

theorem countLe_first (t p : List Char) :
    countLe t p p.length = if occAtB t p 0 then 1 else 0 := by
  unfold countLe
  have h1 : p.length + 1 - p.length = 1 := by omega
  rw [h1, show List.range 1 = [0] from rfl]
  by_cases h : occAtB t p 0
  · simp [h]
  · simp [h]

/-- The per-window state update of the Rabin-Karp loop, in terms of the
occurrence predicate and the cost function. -/
theorem rk_state_update (t p : List Char) (i f c : ℕ)
    (hi : i + p.length ≤ t.length) :
    (if polyHash ((t.drop i).take p.length) = polyHash p then
      RkState.mk (polyHash ((t.drop i).take p.length))
        (if (matchProbe t p i 0).2 && isWordBoundary t i (i + p.length) then f + 1 else f)
        (c + (matchProbe t p i 0).1)
     else RkState.mk (polyHash ((t.drop i).take p.length)) f c)
    = RkState.mk (polyHash ((t.drop i).take p.length))
        (f + if occAtB t p i then 1 else 0) (c + rkCost t p i) := by
  rw [matchProbe_eq t p i hi]
  have hpb : (listProbe ((t.drop i).take p.length) p).2
      = decide ((t.drop i).take p.length = p) := by
    rw [Bool.eq_iff_iff, decide_eq_true_iff]
    exact listProbe_snd _ _ (window_length hi)
  by_cases hh : polyHash ((t.drop i).take p.length) = polyHash p
  · rw [if_pos hh]
    unfold rkCost occAtB
    rw [if_pos hh, hpb]
    congr 1
    by_cases hb : (decide ((t.drop i).take p.length = p) && isWordBoundary t i (i + p.length)) = true
    · rw [if_pos hb, if_pos hb]
    · rw [if_neg hb, if_neg hb]
      omega
  · rw [if_neg hh]
    have hne : ¬ ((t.drop i).take p.length = p) := fun he => hh (by rw [he])
    unfold rkCost occAtB
    rw [if_neg hh]
    simp [hne]

/-- Invariant of the Rabin-Karp window loop: after processing windows
`1 .. d`, the state holds the hash of window `d`, the occurrence count up to
position `d + m`, and the verification cost of windows `0 .. d`. -/
theorem rk_fold (t p : List Char) (hm : p.length ≠ 0) :
    ∀ d, d + p.length ≤ t.length →
      (List.range' 1 d).foldl
        (rkStep t p (polyHash p) (256 ^ (p.length - 1) % rkMod))
        (if polyHash p = polyHash (t.take p.length) then
          RkState.mk (polyHash (t.take p.length))
            (if (matchProbe t p 0 0).2 && isWordBoundary t 0 p.length then 1 else 0)
            ((matchProbe t p 0 0).1)
         else RkState.mk (polyHash (t.take p.length)) 0 0)
      = RkState.mk (polyHash ((t.drop d).take p.length))
          (countLe t p (d + p.length))
          (((List.range (d + 1)).map (rkCost t p)).sum) := by
  intro d
  induction d with
  | zero =>
    intro hd
    rw [List.range'_zero, List.foldl_nil]
    simp only [Nat.zero_add, List.drop_zero]
    have hupd := rk_state_update t p 0 0 0 (by omega)
    simp only [Nat.zero_add, List.drop_zero] at hupd
    rw [countLe_first, show List.range 1 = [0] from rfl]
    simp only [List.map_cons, List.map_nil, List.sum_cons, List.sum_nil, Nat.add_zero]
    by_cases hc : polyHash p = polyHash (t.take p.length)
    · rw [if_pos hc]
      rw [if_pos hc.symm] at hupd
      exact hupd
    · rw [if_neg hc]
      rw [if_neg (fun h => hc h.symm)] at hupd
      exact hupd
  | succ d ih =>
    intro hd
    have hdm : d + p.length ≤ t.length := by omega
    rw [List.range'_concat, List.foldl_append, ih hdm]
    simp only [List.foldl_cons, List.foldl_nil]
    simp only [rkStep]
    have hi1 : 1 + 1 * d = d + 1 := by omega
    rw [hi1]
    have h2 : d + 1 - 1 = d := by omega
    have h3 : d + 1 + p.length - 1 = d + p.length := by omega
    rw [h2, h3]
    have hroll := roll_eq t p d hm (by omega)
    rw [hroll]
    have hupd := rk_state_update t p (d + 1) (countLe t p (d + p.length))
      (((List.range (d + 1)).map (rkCost t p)).sum) (by omega)
    rw [hupd]
    have hc1 : countLe t p (d + 1 + p.length)
        = countLe t p (d + p.length) + (if occAtB t p (d + 1) then 1 else 0) := by
      have := countLe_succ t p (d + p.length) (by omega)
      rw [show d + p.length + 1 - p.length = d + 1 from by omega] at this
      rw [show d + 1 + p.length = d + p.length + 1 from by omega, this]
    have hc2 : ((List.range (d + 1 + 1)).map (rkCost t p)).sum
        = ((List.range (d + 1)).map (rkCost t p)).sum + rkCost t p (d + 1) := by
      rw [List.range_succ]
      simp
    rw [hc1, hc2]

/-- Characterization of `main.py`'s Rabin-Karp matcher: the count is the
whole-word occurrence count, and the comparison total is the per-window
verification cost paid exactly on hash agreement. -/
theorem rabin_karp_search_eq (t p : List Char) (hm : p.length ≠ 0)
    (hn : p.length ≤ t.length) :
    rabin_karp_search t p = (occCount t p, rkComps t p) := by
  have hfold := rk_fold t p hm (t.length - p.length) (by omega)
  simp only [rabin_karp_search]
  rw [if_neg hm, if_neg (by omega : ¬ t.length < p.length), hfold]
  have h1 : t.length - p.length + p.length = t.length := by omega
  rw [h1]
  rw [rkComps_eq_sum, show t.length - p.length + 1 = t.length + 1 - p.length from by omega]
  rfl

/-! ## Borders (KMP failure-function theory)

A *border* of the length-`l` prefix of the pattern is a strictly shorter
prefix that is also a suffix of it; `maxBorder p l` is the longest border
length.  `computeLps` is proved below to tabulate `maxBorder p (l+1)` at
index `l`. -/

theorem isBorder_iff_suffix (p : List Char) (k l : ℕ) (hl : l ≤ p.length) :
    isBorder p k l = true ↔ k < l ∧ p.take k <:+ p.take l := by
  unfold isBorder
  rw [Bool.and_eq_true, decide_eq_true_iff, decide_eq_true_iff]
  constructor
  · rintro ⟨hkl, heq⟩
    refine ⟨hkl, ?_⟩
    rw [heq]
    exact List.drop_suffix _ _
  · rintro ⟨hkl, hsuf⟩
    refine ⟨hkl, ?_⟩
    rw [List.suffix_iff_eq_drop] at hsuf
    rw [hsuf]
    congr 1
    simp
    omega

theorem isBorder_zero (p : List Char) {l : ℕ} (hl : 0 < l) : isBorder p 0 l = true := by
  unfold isBorder
  rw [Bool.and_eq_true, decide_eq_true_iff, decide_eq_true_iff]
  refine ⟨hl, ?_⟩
  rw [Nat.sub_zero, List.take_zero]
  symm
  rw [List.drop_eq_nil_iff]
  simp

theorem maxBorder_lt {p : List Char} {l : ℕ} (hl : 0 < l) : maxBorder p l < l :=
  lt_of_le_of_lt (Nat.findGreatest_le _) (by omega)

theorem maxBorder_isBorder (p : List Char) {l : ℕ} (hl : 0 < l) :
    isBorder p (maxBorder p l) l = true := by
  unfold maxBorder
  exact @Nat.findGreatest_spec 0 (fun k => isBorder p k l = true) _ (l - 1)
    (Nat.zero_le _) (isBorder_zero p hl)

theorem le_maxBorder {p : List Char} {k l : ℕ} (h : isBorder p k l = true) :
    k ≤ maxBorder p l := by
  have hkl : k < l := by
    unfold isBorder at h
    rw [Bool.and_eq_true, decide_eq_true_iff] at h
    exact h.1
  exact Nat.le_findGreatest (by omega) h

theorem maxBorder_one (p : List Char) : maxBorder p 1 = 0 := by
  unfold maxBorder
  rfl

/-- Extending a border with one matching character (both directions).  Needs
`l < p.length` so that `p[l]` exists. -/
theorem isBorder_succ_iff (p : List Char) {k l : ℕ} (hkl : k < l) (hl : l < p.length) :
    (isBorder p (k + 1) (l + 1) = true)
      ↔ (isBorder p k l = true ∧ p.getD k ' ' = p.getD l ' ') := by
  have hlp : l ≤ p.length := le_of_lt hl
  have hkp : k < p.length := lt_of_lt_of_le hkl hlp
  rw [isBorder_iff_suffix p _ _ hl, isBorder_iff_suffix p _ _ (by omega)]
  have htp : p.take (l + 1) = p.take l ++ [p.getD l ' '] := take_succ_of_lt hl ' '
  have htk : p.take (k + 1) = p.take k ++ [p.getD k ' '] := take_succ_of_lt hkp ' '
  constructor
  · rintro ⟨-, hsuf⟩
    rw [htp, htk] at hsuf
    have hpeel := suffix_peel hsuf
    exact ⟨⟨hkl, hpeel.2⟩, hpeel.1⟩
  · rintro ⟨⟨-, hsuf⟩, hchar⟩
    refine ⟨by omega, ?_⟩
    rw [htp, htk, hchar]
    exact suffix_snoc _ hsuf

/-- Borders of the same prefix are nested: a shorter border is a border of a
longer one. -/
theorem isBorder_nested (p : List Char) {k b l : ℕ} (hl : l ≤ p.length)
    (hk : isBorder p k l = true) (hb : isBorder p b l = true) (hkb : k < b) :
    isBorder p k b = true := by
  rw [isBorder_iff_suffix p _ _ hl] at hk hb
  have hbp : b ≤ p.length := le_of_lt (lt_of_lt_of_le hb.1 hl)
  rw [isBorder_iff_suffix p _ _ hbp]
  refine ⟨hkb, ?_⟩
  apply suffix_of_suffix_len_le hk.2 hb.2
  simp
  omega

/-- A border of a border is a border. -/
theorem isBorder_trans (p : List Char) {k b l : ℕ} (hl : l ≤ p.length)
    (hk : isBorder p k b = true) (hb : isBorder p b l = true) :
    isBorder p k l = true := by
  have hbp : b ≤ p.length := by
    rw [isBorder_iff_suffix p _ _ hl] at hb
    omega
  rw [isBorder_iff_suffix p _ _ hbp] at hk
  rw [isBorder_iff_suffix p _ _ hl] at hb
  rw [isBorder_iff_suffix p _ _ hl]
  exact ⟨by omega, hk.2.trans hb.2⟩

/-- The longest border length grows by at most one per character. -/
theorem maxBorder_succ_le (p : List Char) {l : ℕ} (hl : l < p.length) :
    maxBorder p (l + 1) ≤ maxBorder p l + 1 := by
  cases hmb : maxBorder p (l + 1) with
  | zero => omega
  | succ k =>
    have hbord : isBorder p (k + 1) (l + 1) = true := by
      rw [← hmb]
      exact maxBorder_isBorder p (by omega)
    have hk1 : k + 1 < l + 1 := by
      rw [← hmb]
      exact maxBorder_lt (by omega)
    have := (isBorder_succ_iff p (by omega) hl).mp hbord
    have := le_maxBorder this.1
    omega

theorem getD_set_ne {l : List ℕ} {i j : ℕ} (h : i ≠ j) (v d : ℕ) :
    (l.set i v).getD j d = l.getD j d := by
  rw [List.getD_eq_getElem?_getD, List.getD_eq_getElem?_getD, List.getElem?_set, if_neg h]

theorem getD_set_eq {l : List ℕ} {i : ℕ} (h : i < l.length) (v d : ℕ) :
    (l.set i v).getD i d = v := by
  rw [List.getD_eq_getElem?_getD, List.getElem?_set, if_pos rfl, if_pos h]
  rfl

/-- Correctness of the `lps` construction loop: from a state satisfying the
loop invariant, with enough fuel, the finished table holds the longest-border
lengths. -/
theorem lpsLoop_spec (p : List Char) :
    ∀ fuel lps len i,
      1 ≤ i → i ≤ p.length → len < i →
      lps.length = p.length →
      (∀ l, l < i → lps.getD l 0 = maxBorder p (l + 1)) →
      isBorder p len i = true →
      (i < p.length → maxBorder p (i + 1) ≤ len + 1) →
      2 * (p.length - i) + len + 1 ≤ fuel →
      ∀ l, l < p.length → (lpsLoop p fuel lps len i).getD l 0 = maxBorder p (l + 1) := by
  intro fuel
  induction fuel with
  | zero => intro lps len i _ _ _ _ _ _ _ hfuel; omega
  | succ fuel ih =>
    intro lps len i hi1 him hleni hlpslen hprev hbord hmaxI hfuel l hl
    rw [lpsLoop]
    by_cases hiltm : i < p.length
    · rw [if_pos hiltm]
      by_cases hchar : p.getD i ' ' = p.getD len ' '
      · rw [if_pos hchar]
        have hbord' : isBorder p (len + 1) (i + 1) = true :=
          (isBorder_succ_iff p hleni hiltm).mpr ⟨hbord, hchar.symm⟩
        have hmb : maxBorder p (i + 1) = len + 1 :=
          le_antisymm (hmaxI hiltm) (le_maxBorder hbord')
        refine ih (lps.set i (len + 1)) (len + 1) (i + 1) (by omega) (by omega)
          (by omega) (by simpa using hlpslen) ?_ hbord' ?_ (by omega) l hl
        · intro l' hl'
          rcases Nat.lt_or_ge l' i with h' | h'
          · rw [getD_set_ne (by omega) _ _]
            exact hprev l' h'
          · have : l' = i := by omega
            subst this
            rw [getD_set_eq (by omega) _ _, hmb]
        · intro hi1m
          have := maxBorder_succ_le p hi1m
          omega
      · rw [if_neg hchar]
        by_cases hlen0 : len = 0
        · subst hlen0
          rw [if_neg (by omega : ¬ (0 : ℕ) ≠ 0)]
          have hmb : maxBorder p (i + 1) = 0 := by
            by_contra hne
            have hpos : 0 < maxBorder p (i + 1) := Nat.pos_of_ne_zero hne
            have hle1 : maxBorder p (i + 1) ≤ 1 := by
              have := hmaxI hiltm
              omega
            have h1 : maxBorder p (i + 1) = 1 := by omega
            have hb1 : isBorder p (maxBorder p (i + 1)) (i + 1) = true :=
              maxBorder_isBorder p (by omega)
            rw [h1] at hb1
            have := (isBorder_succ_iff p (by omega : 0 < i) hiltm).mp hb1
            exact hchar this.2.symm
          refine ih (lps.set i 0) 0 (i + 1) (by omega) (by omega) (by omega)
            (by simpa using hlpslen) ?_ (isBorder_zero p (by omega)) ?_ (by omega) l hl
          · intro l' hl'
            rcases Nat.lt_or_ge l' i with h' | h'
            · rw [getD_set_ne (by omega) _ _]
              exact hprev l' h'
            · have : l' = i := by omega
              subst this
              rw [getD_set_eq (by omega) _ _, hmb]
          · intro hi1m
            have := maxBorder_succ_le p hi1m
            omega
        · rw [if_pos hlen0]
          have hlenpos : 0 < len := Nat.pos_of_ne_zero hlen0
          have hnew : lps.getD (len - 1) 0 = maxBorder p len := by
            have := hprev (len - 1) (by omega)
            rwa [show len - 1 + 1 = len from by omega] at this
          have hnewlt : maxBorder p len < len := maxBorder_lt hlenpos
          have hbnew : isBorder p (maxBorder p len) i = true :=
            isBorder_trans p him (maxBorder_isBorder p hlenpos) hbord
          refine ih lps (lps.getD (len - 1) 0) i (by omega) (by omega)
            (by rw [hnew]; omega) hlpslen hprev
            (by rw [hnew]; exact hbnew) ?_ (by rw [hnew]; omega) l hl
          intro _
          rw [hnew]
          by_contra hgt
          push_neg at hgt
          have hpos : 0 < maxBorder p (i + 1) := by omega
          obtain ⟨k, hk⟩ : ∃ k, maxBorder p (i + 1) = k + 1 :=
            ⟨maxBorder p (i + 1) - 1, by omega⟩
          have hbk : isBorder p (k + 1) (i + 1) = true := by
            rw [← hk]
            exact maxBorder_isBorder p (by omega)
          have hklt : k + 1 < i + 1 := by
            rw [← hk]
            exact maxBorder_lt (by omega)
          have hsplit := (isBorder_succ_iff p (by omega : k < i) hiltm).mp hbk
          rcases Nat.lt_or_ge k len with hkl | hkl
          · -- k < len: nested border of the length-len prefix
            have hkb : isBorder p k len = true := by
              rcases Nat.eq_zero_or_pos k with rfl | hk0
              · exact isBorder_zero p hlenpos
              · exact isBorder_nested p him hsplit.1 hbord hkl
            have := le_maxBorder hkb
            omega
          · -- k ≥ len: then the maximal border is len + 1 and the characters match
            have hle : maxBorder p (i + 1) ≤ len + 1 := hmaxI hiltm
            have hkeq : k = len := by omega
            subst hkeq
            exact hchar hsplit.2.symm
    · rw [if_neg hiltm]
      exact hprev l (by omega)

/-- The table computed by `computeLps` tabulates the longest-border
lengths. -/
theorem computeLps_spec (p : List Char) (hm : p.length ≠ 0) :
    ∀ l, l < p.length → (computeLps p).getD l 0 = maxBorder p (l + 1) := by
  unfold computeLps
  have hrep : ∀ l, l < p.length → (List.replicate p.length (0 : ℕ)).getD l 0 = 0 := by
    intro l hl
    rw [List.getD_eq_getElem?_getD, List.getElem?_replicate, if_pos hl]
    rfl
  refine lpsLoop_spec p (3 * p.length) _ 0 1 (le_refl 1) (by omega) (by omega)
    (by simp) ?_ (isBorder_zero p (by omega)) ?_ (by omega)
  · intro l hl
    have : l = 0 := by omega
    subst this
    rw [hrep 0 (by omega), maxBorder_one]
  · intro h1m
    have := maxBorder_succ_le p h1m
    rw [maxBorder_one] at this
    omega

/-! ## KMP scan correctness -/

theorem suffix_take_ext {t p : List Char} {i j : ℕ} (hi : i < t.length)
    (hj : j < p.length) (hc : t.getD i ' ' = p.getD j ' ')
    (hA : p.take j <:+ t.take i) : p.take (j + 1) <:+ t.take (i + 1) := by
  rw [take_succ_of_lt hj ' ', take_succ_of_lt hi ' ', hc]
  exact suffix_snoc _ hA

theorem maxBorder_take_suffix (p : List Char) {l : ℕ} (h0 : 0 < l)
    (hl : l ≤ p.length) : p.take (maxBorder p l) <:+ p.take l :=
  ((isBorder_iff_suffix p _ _ hl).mp (maxBorder_isBorder p h0)).2

theorem occAtB_false_of_ne {t p : List Char} {q : ℕ}
    (h : (t.drop q).take p.length ≠ p) : occAtB t p q = false := by
  simp [occAtB, h]

theorem length_take_of_le {p : List Char} {k : ℕ} (h : k ≤ p.length) :
    (p.take k).length = k := by
  simp [List.length_take]
  omega

/-- The suffix of the scanned text contributed by an occurrence that is still
in progress is a border candidate. -/
theorem restrict_to_take {t p : List Char} {q i : ℕ}
    (hw : (t.drop q).take p.length = p) (hk : i - q ≤ p.length) (hq : q ≤ i)
    (hi : i ≤ t.length) : p.take (i - q) <:+ t.take i := by
  have := window_restrict hw hk
  rwa [show q + (i - q) = i from by omega] at this

/-- Main invariant of the `kmp_search` scan loop: so long as
`j` tracks the longest live border, no occurrence is missed, and the running
`found` equals the occurrence count up to the scanned position; with enough
fuel the loop therefore returns the total occurrence count. -/
theorem kmpLoop_found (t p : List Char) (lps : List ℕ)
    (hm : p.length ≠ 0) (hn : p.length ≤ t.length)
    (hlps : ∀ l, l < p.length → lps.getD l 0 = maxBorder p (l + 1)) :
    ∀ fuel i j found comps,
      j < p.length → j ≤ i → i ≤ t.length →
      p.take j <:+ t.take i →
      (∀ q, q < i - j → i < q + p.length → (t.drop q).take p.length ≠ p) →
      found = countLe t p i →
      2 * (t.length - i) + j + 1 ≤ fuel →
      (kmpLoop t p lps fuel ⟨i, j, found, comps⟩).found = countLe t p t.length := by
  intro fuel
  induction fuel with
  | zero => intro i j found comps _ _ _ _ _ _ hfuel; omega
  | succ fuel ih =>
    intro i j found comps hj hji hi hA hNM hC hfuel
    rw [kmpLoop]
    by_cases hin : i < t.length
    · rw [if_pos hin]
      simp only [kmpStep]
      by_cases hc : t.getD i ' ' = p.getD j ' '
      · rw [if_pos hc]
        have hA1 : p.take (j + 1) <:+ t.take (i + 1) := suffix_take_ext hin hj hc hA
        by_cases hjm : j + 1 = p.length
        · rw [if_pos hjm]
          -- a full pattern match ending at i + 1
          have hfull : p <:+ t.take (i + 1) := by
            have := hA1
            rwa [hjm, List.take_length] at this
          have hwin : (t.drop (i + 1 - p.length)).take p.length = p :=
            (suffix_take_iff_window (by omega) (by omega)).mp hfull
          have hmbm : lps.getD (j + 1 - 1) 0 = maxBorder p p.length := by
            have := hlps (p.length - 1) (by omega)
            rw [show p.length - 1 + 1 = p.length from by omega] at this
            rw [show j + 1 - 1 = p.length - 1 from by omega, this]
          have hmblt : maxBorder p p.length < p.length := maxBorder_lt (by omega)
          have hNM' : ∀ q, q < (i + 1) - maxBorder p p.length →
              (i + 1) < q + p.length → (t.drop q).take p.length ≠ p := by
            intro q hq hqm hwq
            have hk1 : i + 1 - q ≤ p.length := by omega
            have hks : p.take (i + 1 - q) <:+ t.take (i + 1) :=
              restrict_to_take hwq hk1 (by omega) (by omega)
            have hsub : p.take (i + 1 - q) <:+ p := by
              have := suffix_of_suffix_len_le hks hfull
                (by rw [length_take_of_le hk1]; exact hk1.trans (le_refl _))
              exact this
            have hbord : isBorder p (i + 1 - q) p.length = true := by
              rw [isBorder_iff_suffix p _ _ (le_refl _)]
              refine ⟨by omega, ?_⟩
              rwa [List.take_length]
            have := le_maxBorder hbord
            omega
          have hfound' :
              (if isWordBoundary t (i + 1 - (j + 1)) (i + 1) then found + 1 else found)
                = countLe t p (i + 1) := by
            rw [countLe_succ t p i (by omega), ← hC]
            have hocc : occAtB t p (i + 1 - p.length)
                = isWordBoundary t (i + 1 - p.length) (i + 1) := by
              unfold occAtB
              rw [decide_eq_true_eq.mpr hwin]
              rw [show i + 1 - p.length + p.length = i + 1 from by omega]
              simp
            rw [hocc, show i + 1 - (j + 1) = i + 1 - p.length from by omega]
            by_cases hb : isWordBoundary t (i + 1 - p.length) (i + 1)
            · rw [if_pos hb, if_pos hb]
            · rw [if_neg hb, if_neg hb]
              omega
          rw [hmbm]
          refine ih (i + 1) (maxBorder p p.length) _ _ hmblt (by omega) (by omega)
            ?_ hNM' hfound' (by omega)
          · exact (maxBorder_take_suffix p (by omega) (le_refl _)).trans
              (by rwa [List.take_length])
        · rw [if_neg hjm]
          have hNM' : ∀ q, q < (i + 1) - (j + 1) → (i + 1) < q + p.length →
              (t.drop q).take p.length ≠ p := by
            intro q hq hqm
            exact hNM q (by omega) (by omega)
          have hC' : found = countLe t p (i + 1) := by
            rcases Nat.lt_or_ge (i + 1) p.length with hlt | hge
            · rw [countLe_succ_of_lt t p i hlt, ← hC]
            · rw [countLe_succ t p i (by omega), ← hC]
              have hne : (t.drop (i + 1 - p.length)).take p.length ≠ p := by
                apply hNM
                · omega
                · omega
              rw [occAtB_false_of_ne hne]
              simp
          exact ih (i + 1) (j + 1) _ _ (by omega) (by omega) (by omega) hA1 hNM'
            hC' (by omega)
      · rw [if_neg hc]
        by_cases hj0 : j ≠ 0
        · rw [if_pos hj0]
          have hjpos : 0 < j := Nat.pos_of_ne_zero hj0
          have hmbj : lps.getD (j - 1) 0 = maxBorder p j := by
            have := hlps (j - 1) (by omega)
            rwa [show j - 1 + 1 = j from by omega] at this
          have hmbjlt : maxBorder p j < j := maxBorder_lt hjpos
          have hA' : p.take (maxBorder p j) <:+ t.take i :=
            (maxBorder_take_suffix p hjpos (by omega)).trans hA
          have hNM' : ∀ q, q < i - maxBorder p j → i < q + p.length →
              (t.drop q).take p.length ≠ p := by
            intro q hq hqm hwq
            rcases Nat.lt_or_ge q (i - j) with hql | hqg
            · exact hNM q hql hqm hwq
            · -- i - j ≤ q < i - maxBorder p j
              have hkj : i - q ≤ j := by omega
              rcases Nat.eq_or_lt_of_le hkj with hkeq | hklt
              · -- the in-progress occurrence continuing through position i
                have : t.getD (q + j) ' ' = p.getD j ' ' :=
                  window_getD hwq hj ' '
                rw [show q + j = i from by omega] at this
                exact hc this
              · have hks : p.take (i - q) <:+ t.take i :=
                  restrict_to_take hwq (by omega) (by omega) (by omega)
                have hsub : p.take (i - q) <:+ p.take j :=
                  suffix_of_suffix_len_le hks hA
                    (by rw [length_take_of_le (by omega), length_take_of_le (by omega)]
                        omega)
                have hbord : isBorder p (i - q) j = true :=
                  (isBorder_iff_suffix p _ _ (by omega)).mpr ⟨by omega, hsub⟩
                have := le_maxBorder hbord
                omega
          rw [hmbj]
          exact ih i (maxBorder p j) _ _ (by omega) (by omega) hi hA' hNM' hC
            (by omega)
        · rw [if_neg hj0]
          push_neg at hj0
          subst hj0
          have hNM' : ∀ q, q < (i + 1) - 0 → (i + 1) < q + p.length →
              (t.drop q).take p.length ≠ p := by
            intro q hq hqm hwq
            rcases Nat.lt_or_ge q i with hql | hqg
            · exact hNM q (by omega) (by omega) hwq
            · have hqi : q = i := by omega
              subst hqi
              have : t.getD (q + 0) ' ' = p.getD 0 ' ' := window_getD hwq (by omega) ' '
              rw [Nat.add_zero] at this
              exact hc this
          have hC' : found = countLe t p (i + 1) := by
            rcases Nat.lt_or_ge (i + 1) p.length with hlt | hge
            · rw [countLe_succ_of_lt t p i hlt, ← hC]
            · rw [countLe_succ t p i (by omega), ← hC]
              have hne : (t.drop (i + 1 - p.length)).take p.length ≠ p := by
                intro hwq
                rcases Nat.lt_or_ge (i + 1 - p.length) i with hql | hqg
                · exact hNM _ (by omega) (by omega) hwq
                · have hq1 : i + 1 - p.length = i := by omega
                  rw [hq1] at hwq
                  have hch : t.getD (i + 0) ' ' = p.getD 0 ' ' :=
                    window_getD hwq (by omega) ' '
                  rw [Nat.add_zero] at hch
                  exact hc hch
              rw [occAtB_false_of_ne hne]
              simp
          exact ih (i + 1) 0 _ _ (by omega) (by omega) (by omega) List.nil_suffix
            hNM' hC' (by omega)
    · rw [if_neg hin]
      have : i = t.length := by omega
      subst this
      exact hC

/-- `kmp_search` returns the whole-word occurrence count. -/
theorem kmp_search_count (t p : List Char) (hm : p.length ≠ 0)
    (hn : p.length ≤ t.length) : (kmp_search t p).1 = occCount t p := by
  simp only [kmp_search]
  rw [if_neg hm, if_neg (by omega : ¬ t.length < p.length)]
  exact kmpLoop_found t p (computeLps p) hm hn (computeLps_spec p hm)
    (2 * t.length + 1) 0 0 0 0 (by omega) (le_refl 0) (by omega)
    (by simp) (by intro q hq; omega) (countLe_zero t p hm).symm (by omega)

/-! ## Monotonicity of comparison counts in the text length -/

theorem sum_range_map_mono (f : ℕ → ℕ) {a b : ℕ} (h : a ≤ b) :
    ((List.range a).map f).sum ≤ ((List.range b).map f).sum := by
  induction b with
  | zero =>
    have : a = 0 := by omega
    subst this
    exact le_refl _
  | succ b ihb =>
    rcases Nat.lt_or_ge a (b + 1) with h' | h'
    · have := ihb (by omega)
      rw [List.range_succ]
      simp
      omega
    · have : a = b + 1 := by omega
      subst this
      exact le_refl _

theorem bfComps_mono (t s p : List Char) : bfComps t p ≤ bfComps (t ++ s) p := by
  unfold bfComps
  have hcongr : (List.range (t.length + 1 - p.length)).map
        (fun i => (listProbe (((t ++ s).drop i).take p.length) p).1)
      = (List.range (t.length + 1 - p.length)).map
        (fun i => (listProbe ((t.drop i).take p.length) p).1) := by
    apply List.map_congr_left
    intro i hi
    rw [List.mem_range] at hi
    rw [window_stable (by omega)]
  calc ((List.range (t.length + 1 - p.length)).map
          (fun i => (listProbe ((t.drop i).take p.length) p).1)).sum
      = ((List.range (t.length + 1 - p.length)).map
          (fun i => (listProbe (((t ++ s).drop i).take p.length) p).1)).sum := by
        rw [hcongr]
    _ ≤ ((List.range ((t ++ s).length + 1 - p.length)).map
          (fun i => (listProbe (((t ++ s).drop i).take p.length) p).1)).sum := by
        apply sum_range_map_mono
        simp
        omega

theorem rkComps_mono (t s p : List Char) : rkComps t p ≤ rkComps (t ++ s) p := by
  unfold rkComps
  have hcongr : (List.range (t.length + 1 - p.length)).map
        (fun i => if polyHash (((t ++ s).drop i).take p.length) = polyHash p
          then (listProbe (((t ++ s).drop i).take p.length) p).1 else 0)
      = (List.range (t.length + 1 - p.length)).map
        (fun i => if polyHash ((t.drop i).take p.length) = polyHash p
          then (listProbe ((t.drop i).take p.length) p).1 else 0) := by
    apply List.map_congr_left
    intro i hi
    rw [List.mem_range] at hi
    rw [window_stable (by omega)]
  calc ((List.range (t.length + 1 - p.length)).map
          (fun i => if polyHash ((t.drop i).take p.length) = polyHash p
            then (listProbe ((t.drop i).take p.length) p).1 else 0)).sum
      = ((List.range (t.length + 1 - p.length)).map
          (fun i => if polyHash (((t ++ s).drop i).take p.length) = polyHash p
            then (listProbe (((t ++ s).drop i).take p.length) p).1 else 0)).sum := by
        rw [hcongr]
    _ ≤ _ := by
        apply sum_range_map_mono
        simp
        omega

theorem brute_force_comps_mono (t s p : List Char) (hm : p.length ≠ 0) :
    (brute_force_search t p).2 ≤ (brute_force_search (t ++ s) p).2 := by
  by_cases hn : t.length < p.length
  · have : brute_force_search t p = (0, 0) := by
      unfold brute_force_search
      rw [if_neg hm, if_pos hn]
    rw [this]
    exact Nat.zero_le _
  · push_neg at hn
    have hn' : p.length ≤ (t ++ s).length := by simp; omega
    rw [brute_force_search_eq t p hm hn, brute_force_search_eq (t ++ s) p hm hn']
    exact bfComps_mono t s p

theorem rabin_karp_comps_mono (t s p : List Char) (hm : p.length ≠ 0) :
    (rabin_karp_search t p).2 ≤ (rabin_karp_search (t ++ s) p).2 := by
  by_cases hn : t.length < p.length
  · have : rabin_karp_search t p = (0, 0) := by
      unfold rabin_karp_search
      rw [if_neg hm, if_pos hn]
    rw [this]
    exact Nat.zero_le _
  · push_neg at hn
    have hn' : p.length ≤ (t ++ s).length := by simp; omega
    rw [rabin_karp_search_eq t p hm hn, rabin_karp_search_eq (t ++ s) p hm hn']
    exact rkComps_mono t s p

theorem kmpStep_comps (t p : List Char) (lps : List ℕ) (st : KmpState) :
    (kmpStep t p lps st).comps = st.comps + 1 := by
  simp only [kmpStep]
  split_ifs <;> rfl

theorem kmpLoop_comps_ge (t p : List Char) (lps : List ℕ) :
    ∀ fuel st, st.comps ≤ (kmpLoop t p lps fuel st).comps := by
  intro fuel
  induction fuel with
  | zero => intro st; exact le_refl _
  | succ fuel ih =>
    intro st
    rw [kmpLoop]
    by_cases hin : st.i < t.length
    · rw [if_pos hin]
      calc st.comps ≤ (kmpStep t p lps st).comps := by rw [kmpStep_comps]; omega
        _ ≤ _ := ih _
    · rw [if_neg hin]

/-- The comparison count of the KMP scan is monotone under extending the
text: while the scan is inside the original text the two runs step alike
(the occurrence counter may differ at a match that touches the boundary of
the original text, but it never influences control flow), and afterwards the
extended run can only add comparisons. -/
theorem kmpLoop_comps_le (t s p : List Char) (lps : List ℕ) :
    ∀ fuel₁ fuel₂ i j f₁ f₂ c, fuel₁ ≤ fuel₂ → i ≤ t.length →
      (kmpLoop t p lps fuel₁ ⟨i, j, f₁, c⟩).comps
        ≤ (kmpLoop (t ++ s) p lps fuel₂ ⟨i, j, f₂, c⟩).comps := by
  intro fuel₁
  induction fuel₁ with
  | zero =>
    intro fuel₂ i j f₁ f₂ c _ _
    exact kmpLoop_comps_ge (t ++ s) p lps fuel₂ ⟨i, j, f₂, c⟩
  | succ fuel₁ ih =>
    intro fuel₂ i j f₁ f₂ c hf hi
    by_cases hin : i < t.length
    · obtain ⟨fuel₂', rfl⟩ : ∃ k, fuel₂ = k + 1 := ⟨fuel₂ - 1, by omega⟩
      rw [kmpLoop, kmpLoop]
      have hin' : i < (t ++ s).length := by simp; omega
      rw [if_pos hin, if_pos hin']
      have hchar : (t ++ s).getD i ' ' = t.getD i ' ' :=
        List.getD_append _ _ _ _ hin
      simp only [kmpStep, hchar]
      split_ifs <;> exact ih _ _ _ _ _ _ (by omega) (by omega)
    · conv_lhs => rw [kmpLoop]
      rw [if_neg hin]
      exact kmpLoop_comps_ge (t ++ s) p lps fuel₂ ⟨i, j, f₂, c⟩

theorem kmp_comps_mono (t s p : List Char) (hm : p.length ≠ 0) :
    (kmp_search t p).2 ≤ (kmp_search (t ++ s) p).2 := by
  by_cases hn : t.length < p.length
  · have : kmp_search t p = (0, 0) := by
      unfold kmp_search
      rw [if_neg hm, if_pos hn]
    rw [this]
    exact Nat.zero_le _
  · push_neg at hn
    have hn' : ¬ (t ++ s).length < p.length := by simp; omega
    have hnlt : ¬ t.length < p.length := by omega
    simp only [kmp_search]
    rw [if_neg hm]
    rw [if_neg hnlt]
    rw [if_neg hm]
    rw [if_neg hn']
    exact kmpLoop_comps_le t s p (computeLps p) (2 * t.length + 1)
      (2 * (t ++ s).length + 1) 0 0 0 0 0 (by simp) (by omega)

/-! ## The dict-returning revisions -/

theorem bfDictProbe_nil (t : List Char) (i : ℕ) : bfDictProbe t [] i 0 = (0, true) := by
  rw [bfDictProbe]
  simp

/-- `algorithms/brute_force.py` on the empty pattern: every one of the
`n + 1` window offsets matches vacuously, so the result is
`found = True, count = n + 1, comparisons = 0`. -/
theorem brute_force_dict_nil (t : List Char) :
    brute_force_dict t [] = ⟨true, t.length + 1, 0⟩ := by
  have key : ∀ (k : ℕ) (a b : ℕ),
      (List.range k).foldl
        (fun acc i =>
          let r := bfDictProbe t [] i 0
          ((if r.2 then acc.1 + 1 else acc.1), acc.2 + r.1))
        (a, b) = (a + k, b) := by
    intro k
    induction k with
    | zero => intro a b; simp
    | succ k ihk =>
      intro a b
      rw [List.range_succ, List.foldl_append, ihk]
      simp [bfDictProbe_nil]
      omega
  simp only [brute_force_dict]
  rw [show t.length + 1 - List.length ([] : List Char) = t.length + 1 from rfl]
  rw [key (t.length + 1) 0 0]
  simp

theorem brute_force_dict_found (t p : List Char) :
    ((brute_force_dict t p).found = true ↔ 0 < (brute_force_dict t p).count) := by
  unfold brute_force_dict
  simp

theorem rabin_karp_dict_found (t p : List Char) :
    ((rabin_karp_dict t p).found = true ↔ 0 < (rabin_karp_dict t p).count) := by
  unfold rabin_karp_dict
  by_cases h : t.length < p.length
  · rw [if_pos h]
    simp
  · rw [if_neg h]
    simp

theorem kmp_search_dict_found (t p : List Char) (r : SearchResult)
    (h : kmp_search_dict t p = some r) : (r.found = true ↔ 0 < r.count) := by
  unfold kmp_search_dict at h
  rw [Option.map_eq_some'] at h
  obtain ⟨x, -, rfl⟩ := h
  simp

/-! ## Scoring -/

/-- The weighted score equals the pre-penalty weighted score times the
penalty multiplier, the latter applied exactly when some mandatory keyword
is missed. -/
theorem weightedScore_penalty (mm mTot mp pTot : ℕ) (q : ℚ) :
    weightedScore mm mTot mp pTot q
      = weightedBase mm mTot mp pTot * (if mm < mTot then 1 - q / 100 else 1) := by
  unfold weightedScore weightedBase
  by_cases h : mm < mTot
  · rw [if_pos h, if_pos h]
  · rw [if_neg h, if_neg h]
    ring

/-! ## Ranking -/

theorem mem_rankInsert (x z : List Char × ℚ) :
    ∀ l, z ∈ rankInsert x l → z = x ∨ z ∈ l := by
  intro l
  induction l with
  | nil =>
    intro h
    rw [rankInsert] at h
    exact Or.inl (List.mem_singleton.mp h)
  | cons y ys ih =>
    intro h
    rw [rankInsert] at h
    by_cases hc : y.2 ≤ x.2
    · rw [if_pos hc] at h
      rcases List.mem_cons.mp h with rfl | h2
      · exact Or.inl rfl
      · exact Or.inr h2
    · rw [if_neg hc] at h
      rcases List.mem_cons.mp h with rfl | h2
      · exact Or.inr (List.mem_cons_self _ _)
      · rcases ih h2 with h3 | h3
        · exact Or.inl h3
        · exact Or.inr (List.mem_cons_of_mem _ h3)

theorem rankInsert_pairwise (x : List Char × ℚ) :
    ∀ l, List.Pairwise RankedOrder l → (∀ y ∈ l, x.1 < y.1) →
      List.Pairwise RankedOrder (rankInsert x l) := by
  intro l
  induction l with
  | nil =>
    intro _ _
    rw [rankInsert]
    exact List.pairwise_singleton _ _
  | cons y ys ih =>
    intro hp hid
    rw [List.pairwise_cons] at hp
    rw [rankInsert]
    by_cases hc : y.2 ≤ x.2
    · rw [if_pos hc]
      rw [List.pairwise_cons, List.pairwise_cons]
      refine ⟨?_, hp.1, hp.2⟩
      intro z hz
      rcases List.mem_cons.mp hz with rfl | hz'
      · rcases lt_or_eq_of_le hc with h' | h'
        · exact Or.inl h'
        · exact Or.inr ⟨h'.symm, hid z (List.mem_cons_self _ _)⟩
      · rcases hp.1 z hz' with h' | h'
        · exact Or.inl (lt_of_lt_of_le h' hc)
        · rcases lt_or_eq_of_le hc with h'' | h''
          · exact Or.inl (by rw [← h'.1]; exact h'')
          · exact Or.inr ⟨by rw [← h'', h'.1], hid z (List.mem_cons_of_mem _ hz')⟩
    · rw [if_neg hc]
      rw [List.pairwise_cons]
      refine ⟨?_, ih hp.2 (fun z hz => hid z (List.mem_cons_of_mem _ hz))⟩
      intro z hz
      rcases mem_rankInsert x z ys hz with rfl | hz'
      · exact Or.inl (lt_of_not_le hc)
      · exact hp.1 z hz'

theorem mem_rankSort (z : List Char × ℚ) :
    ∀ l, z ∈ rankSort l → z ∈ l := by
  intro l
  induction l with
  | nil => intro h; rw [rankSort] at h; exact h
  | cons x xs ih =>
    intro h
    rw [rankSort] at h
    rcases mem_rankInsert x z (rankSort xs) h with rfl | h'
    · exact List.mem_cons_self _ _
    · exact List.mem_cons_of_mem _ (ih h')

/-- The displayed batch ranking is ordered by descending score with ties
broken by ascending document id, provided the input rows arrive in
ascending id order (as produced by the worker's `sorted(set(...))`
iteration). -/
theorem rankSort_pairwise :
    ∀ l, List.Pairwise (fun (a b : List Char × ℚ) => a.1 < b.1) l →
      List.Pairwise RankedOrder (rankSort l) := by
  intro l
  induction l with
  | nil => intro _; rw [rankSort]; exact List.Pairwise.nil
  | cons x xs ih =>
    intro hp
    rw [List.pairwise_cons] at hp
    rw [rankSort]
    apply rankInsert_pairwise x (rankSort xs) (ih hp.2)
    intro y hy
    exact hp.1 y (mem_rankSort y xs hy)

/-! ## Claim theorems -/

/-- C1: for every text and every non-empty pattern (the same case-folding
applied to both by the caller), the brute-force, Rabin-Karp and KMP matchers
of `main.py` return exactly the same occurrence count. -/
theorem claim_C1_matchers_agree (t p : List Char) (hp : p ≠ []) :
    (brute_force_search t p).1 = (rabin_karp_search t p).1 ∧
    (rabin_karp_search t p).1 = (kmp_search t p).1 := by
  have hm : p.length ≠ 0 := fun h => hp (List.length_eq_zero.mp h)
  by_cases hn : t.length < p.length
  · have h1 : brute_force_search t p = (0, 0) := by
      unfold brute_force_search
      rw [if_neg hm, if_pos hn]
    have h2 : rabin_karp_search t p = (0, 0) := by
      unfold rabin_karp_search
      rw [if_neg hm, if_pos hn]
    have h3 : kmp_search t p = (0, 0) := by
      unfold kmp_search
      rw [if_neg hm, if_pos hn]
    rw [h1, h2, h3]
    exact ⟨rfl, rfl⟩
  · push_neg at hn
    rw [brute_force_search_eq t p hm hn, rabin_karp_search_eq t p hm hn]
    refine ⟨rfl, ?_⟩
    show occCount t p = (kmp_search t p).1
    rw [kmp_search_count t p hm hn]

theorem claim_C1_witness :
    (['a', 'b'] : List Char) ≠ [] ∧
    ((brute_force_search ['a', 'b', 'c', ' ', 'a', 'b'] ['a', 'b']).1
        = (rabin_karp_search ['a', 'b', 'c', ' ', 'a', 'b'] ['a', 'b']).1 ∧
      (rabin_karp_search ['a', 'b', 'c', ' ', 'a', 'b'] ['a', 'b']).1
        = (kmp_search ['a', 'b', 'c', ' ', 'a', 'b'] ['a', 'b']).1) :=
  ⟨by decide, claim_C1_matchers_agree ['a', 'b', 'c', ' ', 'a', 'b'] ['a', 'b'] (by decide)⟩

/-- C2 counterexample: in `main.py`'s `kmp_search`, a complete character
match is NOT counted when the Boundary Checker rejects the span.  On text
`"aa"` and pattern `"a"` the pattern cursor reaches the full pattern length
twice (two full character matches), yet the returned occurrence count is 0;
at the step level, the state after the first full match keeps `found = 0`. -/
theorem claim_C2_counterexample :
    kmp_search ['a', 'a'] ['a'] = (0, 2) ∧
    fullMatchCount ['a', 'a'] ['a'] = 2 ∧
    (kmp_search ['a', 'a'] ['a']).1 ≠ fullMatchCount ['a', 'a'] ['a'] ∧
    kmpStep ['a', 'a'] ['a'] [0] ⟨0, 0, 0, 0⟩ = ⟨1, 0, 0, 1⟩ := by decide

/-- C2 (amended): whenever the pattern cursor reaches the full pattern
length (a character match with `j + 1 = m`), the occurrence is counted
exactly when the Boundary Checker approves the span `[i+1-m, i+1)`, and
scanning always resumes via `j = lps[j-1]` (regardless of boundary
acceptance). -/
theorem claim_C2_amended (t p : List Char) (lps : List ℕ) (i j f c : ℕ)
    (hc : t.getD i ' ' = p.getD j ' ') (hjm : j + 1 = p.length) :
    kmpStep t p lps ⟨i, j, f, c⟩ =
      ⟨i + 1, lps.getD (p.length - 1) 0,
        (if isWordBoundary t (i + 1 - p.length) (i + 1) then f + 1 else f), c + 1⟩ := by
  simp only [kmpStep]
  rw [if_pos hc, if_pos hjm]
  rw [show j + 1 - 1 = p.length - 1 from by omega,
    show i + 1 - (j + 1) = i + 1 - p.length from by omega]

theorem claim_C2_witness :
    (['a', ' '] : List Char).getD 0 ' ' = (['a'] : List Char).getD 0 ' ' ∧
    (0 : ℕ) + 1 = (['a'] : List Char).length ∧
    kmpStep ['a', ' '] ['a'] [0] ⟨0, 0, 0, 0⟩ = ⟨1, 0, 1, 1⟩ :=
  ⟨by decide, by decide,
    (claim_C2_amended ['a', ' '] ['a'] [0] 0 0 0 0 (by decide) (by decide)).trans
      (by decide)⟩

/-- C3 counterexample: the `algorithms/brute_force.py` revision treats the
empty pattern as matching everywhere: on text `"a"` it reports 2 occurrences
and `found = True`, not `(0, 0)`/unmatched. -/
theorem claim_C3_counterexample :
    (brute_force_dict ['a'] []).count = 2 ∧
    (brute_force_dict ['a'] []).found = true := by
  rw [brute_force_dict_nil ['a']]
  exact ⟨rfl, rfl⟩

/-- C3 (amended): for every text, the three `main.py` matchers return
`(0, 0)` for the empty pattern (it never counts as matched); the
`algorithms/brute_force.py` revision instead reports `len(text) + 1`
occurrences with `found = True`. -/
theorem claim_C3_amended :
    (∀ t : List Char, brute_force_search t [] = (0, 0) ∧
      rabin_karp_search t [] = (0, 0) ∧ kmp_search t [] = (0, 0)) ∧
    (∀ t : List Char, brute_force_dict t [] = ⟨true, t.length + 1, 0⟩) := by
  refine ⟨fun t => ⟨rfl, rfl, rfl⟩, brute_force_dict_nil⟩

/-- C4 counterexample: `main.py`'s `rabin_karp_search` does NOT count one
comparison per window for the hash test: on text `"ab"` and pattern `"b"`
it reports 1 comparison, while the claimed accounting (one per window plus
one per verified character) gives 3. -/
theorem claim_C4_counterexample :
    (rabin_karp_search ['a', 'b'] ['b']).2 = 1 ∧
    rkClaimedComps ['a', 'b'] ['b'] = 3 ∧
    (rabin_karp_search ['a', 'b'] ['b']).2 ≠ rkClaimedComps ['a', 'b'] ['b'] := by
  rw [rabin_karp_search_eq ['a', 'b'] ['b'] (by decide) (by decide)]
  decide

/-- C4 (amended): `main.py`'s Rabin-Karp matcher increments its comparison
counter only during collision verification — once per character checked, on
exactly the windows whose rolling hash equals the pattern hash — and an
occurrence is accepted only when character verification succeeds and the
Boundary Checker approves the span (the count equals the whole-word
occurrence count). -/
theorem claim_C4_amended (t p : List Char) (hp : p ≠ []) (hn : p.length ≤ t.length) :
    rabin_karp_search t p = (occCount t p, rkComps t p) :=
  rabin_karp_search_eq t p (fun h => hp (List.length_eq_zero.mp h)) hn

theorem claim_C4_witness :
    (['b'] : List Char) ≠ [] ∧ (['b'] : List Char).length ≤ (['a', 'b'] : List Char).length ∧
    rabin_karp_search ['a', 'b'] ['b']
      = (occCount ['a', 'b'] ['b'], rkComps ['a', 'b'] ['b']) :=
  ⟨by decide, by decide, claim_C4_amended ['a', 'b'] ['b'] (by decide) (by decide)⟩

/-- C5: with mandatory `{"Python","SQL"}`, preferred `{"Go"}`, weights
`(0.7, 0.3)` and penalty `20%`, a document matching only `"Python"` and
`"Go"` (one of two mandatory keywords, one of one preferred) scores exactly
`52.0`; and in general the penalty multiplier `1 - p/100` is applied exactly
when the matched-mandatory count is strictly below the mandatory-set
size. -/
theorem claim_C5_scoring :
    weightedScore 1 2 1 1 20 = 52 ∧
    (∀ (mm mTot mp pTot : ℕ) (q : ℚ),
      weightedScore mm mTot mp pTot q
        = weightedBase mm mTot mp pTot * (if mm < mTot then 1 - q / 100 else 1)) := by
  constructor
  · unfold weightedScore
    norm_num
  · exact weightedScore_penalty

/-- C6: when both keyword sets are empty the Scoring Engine returns exactly
`100.0` for every document (any matched counts), no penalty is applied (the
result equals the pre-penalty weighted score), and no division occurs since
both ratio branches take their guarded `100.0` arm. -/
theorem claim_C6_empty_sets (mm mp : ℕ) (q : ℚ) :
    weightedScore mm 0 mp 0 q = weightedBase mm 0 mp 0 ∧
    weightedBase mm 0 mp 0 = 100 := by
  constructor
  · unfold weightedScore weightedBase
    norm_num
  · unfold weightedBase
    norm_num

/-- C7: the batch ranking (`update_batch_results_tab`'s stable
score-descending sort of the worker's ascending-id rows) lists `(id, score)`
pairs in descending score order with ties broken by ascending id; in
particular scores `[52, 80, 80]` for ids `["b", "a", "c"]` rank as
`[("a", 80), ("c", 80), ("b", 52)]`. -/
theorem claim_C7_batch_ranking :
    (∀ rows : List (List Char × ℚ),
      List.Pairwise (fun a b => a.1 < b.1) rows →
      List.Pairwise RankedOrder (rankSort rows)) ∧
    rankSort [(['b'], 52), (['a'], 80), (['c'], 80)]
      = [(['a'], 80), (['c'], 80), (['b'], 52)] := by
  exact ⟨rankSort_pairwise, by decide⟩

theorem claim_C7_witness :
    List.Pairwise (fun (a b : List Char × ℚ) => a.1 < b.1)
      [(['a'], (80 : ℚ)), (['b'], 52), (['c'], 80)] ∧
    List.Pairwise RankedOrder (rankSort [(['a'], (80 : ℚ)), (['b'], 52), (['c'], 80)]) :=
  ⟨by decide, claim_C7_batch_ranking.1 _ (by decide)⟩

/-- C8: for every fixed non-empty pattern, each matcher's comparison count is
non-negative and monotonically non-decreasing in the text length: extending
the text can only keep or increase it. -/
theorem claim_C8_comps_monotone (p t s : List Char) (hp : p ≠ []) :
    (0 ≤ (brute_force_search t p).2 ∧ 0 ≤ (rabin_karp_search t p).2 ∧
      0 ≤ (kmp_search t p).2) ∧
    ((brute_force_search t p).2 ≤ (brute_force_search (t ++ s) p).2 ∧
      (rabin_karp_search t p).2 ≤ (rabin_karp_search (t ++ s) p).2 ∧
      (kmp_search t p).2 ≤ (kmp_search (t ++ s) p).2) := by
  have hm : p.length ≠ 0 := fun h => hp (List.length_eq_zero.mp h)
  exact ⟨⟨Nat.zero_le _, Nat.zero_le _, Nat.zero_le _⟩,
    brute_force_comps_mono t s p hm, rabin_karp_comps_mono t s p hm,
    kmp_comps_mono t s p hm⟩

theorem claim_C8_witness :
    (['a'] : List Char) ≠ [] ∧
    ((0 ≤ (brute_force_search ['a', 'b'] ['a']).2 ∧
        0 ≤ (rabin_karp_search ['a', 'b'] ['a']).2 ∧
        0 ≤ (kmp_search ['a', 'b'] ['a']).2) ∧
      ((brute_force_search ['a', 'b'] ['a']).2
          ≤ (brute_force_search (['a', 'b'] ++ [' ', 'a']) ['a']).2 ∧
        (rabin_karp_search ['a', 'b'] ['a']).2
          ≤ (rabin_karp_search (['a', 'b'] ++ [' ', 'a']) ['a']).2 ∧
        (kmp_search ['a', 'b'] ['a']).2
          ≤ (kmp_search (['a', 'b'] ++ [' ', 'a']) ['a']).2)) :=
  ⟨by decide, claim_C8_comps_monotone ['a'] ['a', 'b'] [' ', 'a'] (by decide)⟩

/-- C9: the Boundary Checker returns true iff the character immediately
before `start` (the sentinel when `start = 0`) is non-alphanumeric AND the
character at `end` (the sentinel when `end = length`) is non-alphanumeric. -/
theorem claim_C9_boundary (t : List Char) (s e : ℕ) (hse : s ≤ e) (hel : e ≤ t.length) :
    (isWordBoundary t s e = true ↔
      ((∀ c ∈ charBefore t s, pyIsAlnum c = false) ∧
        (∀ c ∈ charAfter t e, pyIsAlnum c = false))) := by
  simp only [isWordBoundary, charBefore, charAfter, Bool.and_eq_true, Bool.not_eq_true']
  constructor
  · rintro ⟨h1, h2⟩
    constructor
    · intro c hc
      by_cases hs : s = 0
      · rw [if_pos hs] at hc
        simp at hc
      · rw [if_neg hs] at hc
        rw [if_pos (by omega : 0 < s)] at h1
        have hsl : s - 1 < t.length := by omega
        rw [List.getElem?_eq_getElem hsl] at hc
        simp at hc
        rw [getD_eq_of_lt t ' ' hsl] at h1
        rw [hc] at h1
        exact h1
    · intro c hc
      by_cases he : e = t.length
      · rw [if_pos he] at hc
        simp at hc
      · rw [if_neg he] at hc
        rw [if_pos (by omega : e < t.length)] at h2
        have hl : e < t.length := by omega
        rw [List.getElem?_eq_getElem hl] at hc
        simp at hc
        rw [getD_eq_of_lt t ' ' hl] at h2
        rw [hc] at h2
        exact h2
  · rintro ⟨h1, h2⟩
    constructor
    · by_cases hs : s = 0
      · rw [if_neg (by omega : ¬ 0 < s)]
        decide
      · rw [if_pos (by omega : 0 < s)]
        have hsl : s - 1 < t.length := by omega
        rw [getD_eq_of_lt t ' ' hsl]
        apply h1
        rw [if_neg hs, List.getElem?_eq_getElem hsl]
        simp
    · by_cases he : e = t.length
      · rw [if_neg (by omega : ¬ e < t.length)]
        decide
      · rw [if_pos (by omega : e < t.length)]
        have hl : e < t.length := by omega
        rw [getD_eq_of_lt t ' ' hl]
        apply h2
        rw [if_neg he, List.getElem?_eq_getElem hl]
        simp

theorem claim_C9_witness :
    (1 : ℕ) ≤ 3 ∧ (3 : ℕ) ≤ (['a', 'b', 'c', ' '] : List Char).length ∧
    (isWordBoundary ['a', 'b', 'c', ' '] 1 3 = true ↔
      ((∀ c ∈ charBefore ['a', 'b', 'c', ' '] 1, pyIsAlnum c = false) ∧
        (∀ c ∈ charAfter ['a', 'b', 'c', ' '] 3, pyIsAlnum c = false))) :=
  ⟨by decide, by decide,
    claim_C9_boundary ['a', 'b', 'c', ' '] 1 3 (by decide) (by decide)⟩

/-- C10: in the dict-returning single-pattern revisions, every returned
result dictionary satisfies `found = (count > 0)` (for `algorithms/kmp.py`,
whose empty-pattern path raises and returns nothing, the invariant is stated
on every returned result). -/
theorem claim_C10_found_iff (t p : List Char) :
    ((brute_force_dict t p).found = true ↔ 0 < (brute_force_dict t p).count) ∧
    ((rabin_karp_dict t p).found = true ↔ 0 < (rabin_karp_dict t p).count) ∧
    (∀ r, kmp_search_dict t p = some r → (r.found = true ↔ 0 < r.count)) :=
  ⟨brute_force_dict_found t p, rabin_karp_dict_found t p, kmp_search_dict_found t p⟩

theorem claim_C10_witness :
    kmp_search_dict ['a', 'b'] ['a'] = some ⟨true, 1, 2⟩ ∧
    ((⟨true, 1, 2⟩ : SearchResult).found = true ↔ 0 < (⟨true, 1, 2⟩ : SearchResult).count) :=
  ⟨by decide,
    (claim_C10_found_iff ['a', 'b'] ['a']).2.2 ⟨true, 1, 2⟩ (by decide)⟩

end CVA
